import Mathlib

/-!
Verification of the watermark-image synthesis pipeline of `xwatermark`
(`src/main.go`): canvas sizing, tiled drawing loop, rotate-and-crop
resampling, and username extraction.  Go integers are modelled as `ℕ`/`ℤ`
(with Go's truncating division written explicitly), `float64` arithmetic
is idealised as exact real (or rational) arithmetic, and images are
records of a width, a height and a pixel buffer.
-/

namespace XWatermark

/-- Color value of one pixel, mirroring Go's `color.RGBA` (the numeric
range plays no role in the claims, so channels are plain naturals). -/
structure RGBA where
  r : ℕ
  g : ℕ
  b : ℕ
  a : ℕ
deriving DecidableEq, Repr

/-- Fully transparent pixel: Go's `image.Transparent` uniform color, and
also the zero value a fresh `image.RGBA` buffer holds. -/
def RGBA.transparent : RGBA := ⟨0, 0, 0, 0⟩

/-- Raster image: fixed dimensions plus a pixel buffer, mirroring Go's
`*image.RGBA` with `Min = (0,0)`. -/
structure Image where
  width : ℕ
  height : ℕ
  pix : ℕ → ℕ → RGBA

/-- Oversized square canvas side length, translated from
`int(math.Sqrt(float64(width*width+height*height))) * 5 / 4`
(src/main.go line 183): the square root is truncated to an integer
first, then scaled by `5/4` in integer arithmetic. -/
def canvasSize (w h : ℕ) : ℕ :=
  Nat.sqrt (w * w + h * h) * 5 / 4

/-- Formula stated by the spec for the canvas side:
`ceil(sqrt(w² + h²) * 5/4)`.  Written over the integers:
`sqrt(s)·5/4 = sqrt(25·s)/4`, whose ceiling is `m/4` when `25·s` is the
perfect square `m²` with `4 ∣ m`, and `m/4 + 1` otherwise, where
`m = ⌊sqrt(25·s)⌋`. -/
def specCanvasSide (w h : ℕ) : ℕ :=
  let t := 25 * (w * w + h * h)
  let m := Nat.sqrt t
  if m * m = t ∧ m % 4 = 0 then m / 4 else m / 4 + 1

/-- Helper: a concrete value of `Nat.sqrt` via its order characterisation. -/
theorem sqrt_eq_of_bounds {n m : ℕ} (h1 : m * m ≤ n) (h2 : n < (m + 1) * (m + 1)) :
    Nat.sqrt n = m := by
  have ha : m ≤ Nat.sqrt n := Nat.le_sqrt.mpr h1
  have hb : Nat.sqrt n < m + 1 := Nat.sqrt_lt.mpr h2
  omega

/-- Main property of `specCanvasSide`: it is the least `n` with
`25·(w²+h²) ≤ 16·n²`, i.e. the least integer `n ≥ sqrt(w²+h²)·5/4` —
exactly the ceiling the spec describes. -/
theorem specCanvasSide_isLeast (w h : ℕ) :
    IsLeast {n : ℕ | 25 * (w * w + h * h) ≤ 16 * (n * n)} (specCanvasSide w h) := by
  set t := 25 * (w * w + h * h) with ht
  set m := Nat.sqrt t with hm
  have hmle : m * m ≤ t := by
    have := Nat.sqrt_le' t
    simpa [hm, pow_two] using this
  have hmlt : t < (m + 1) * (m + 1) := by
    have := Nat.lt_succ_sqrt' t
    simpa [hm, pow_two, Nat.succ_eq_add_one] using this
  have hdiv : 4 * (m / 4) ≤ m := by omega
  have hdiv2 : m ≤ 4 * (m / 4) + 3 := by omega
  change IsLeast {n : ℕ | t ≤ 16 * (n * n)}
    (if m * m = t ∧ m % 4 = 0 then m / 4 else m / 4 + 1)
  by_cases hc : m * m = t ∧ m % 4 = 0
  · rw [if_pos hc]
    obtain ⟨hsq, hmod⟩ := hc
    have h4 : 4 * (m / 4) = m := by omega
    constructor
    · show t ≤ 16 * (m / 4 * (m / 4))
      have hteq : t = 16 * (m / 4 * (m / 4)) := by
        rw [← hsq]
        nlinarith [h4]
      omega
    · intro n hn
      show m / 4 ≤ n
      have h16 : t ≤ 16 * (n * n) := hn
      by_contra hlt
      push_neg at hlt
      have hn4 : 4 * n + 4 ≤ m := by omega
      have hcon : 16 * (n * n) < m * m := by nlinarith
      omega

  · rw [if_neg hc]
    constructor
    · show t ≤ 16 * ((m / 4 + 1) * (m / 4 + 1))
      have h5 : m + 1 ≤ 4 * (m / 4 + 1) := by omega
      have : (m + 1) * (m + 1) ≤ (4 * (m / 4 + 1)) * (4 * (m / 4 + 1)) := by
        nlinarith
      nlinarith
    · intro n hn
      show m / 4 + 1 ≤ n
      have h16 : t ≤ 16 * (n * n) := hn
      by_contra hlt
      push_neg at hlt
      have hnle : n ≤ m / 4 := by omega
      have h1 : 16 * (n * n) ≤ 16 * ((m / 4) * (m / 4)) := by nlinarith
      have h2 : 16 * ((m / 4) * (m / 4)) ≤ m * m := by nlinarith
      have heq : m * m = t := by omega
      have h3 : 16 * ((m / 4) * (m / 4)) = m * m := by omega
      have h4m : (4 * (m / 4)) * (4 * (m / 4)) = m * m := by
        calc (4 * (m / 4)) * (4 * (m / 4)) = 16 * ((m / 4) * (m / 4)) := by ring
          _ = m * m := h3
      have : 4 * (m / 4) = m := by nlinarith
      exact hc ⟨heq, by omega⟩

/-- Helper: concrete square root used by the 1920×1080 instance of the
code's formula. -/
theorem sqrt_4852800 : Nat.sqrt 4852800 = 2202 :=
  sqrt_eq_of_bounds (by norm_num) (by norm_num)

/-- Helper: concrete square root used by the 1920×1080 instance of the
spec's ceiling formula. -/
theorem sqrt_121320000 : Nat.sqrt 121320000 = 11014 :=
  sqrt_eq_of_bounds (by norm_num) (by norm_num)

/-- Helper: evaluation rule for `canvasSize`, kept at variables so the
kernel never has to reduce `Nat.sqrt` applied to a literal. -/
theorem canvasSize_eq_of (w h s m c : ℕ) (h1 : w * w + h * h = s)
    (h2 : Nat.sqrt s = m) (h3 : m * 5 / 4 = c) : canvasSize w h = c := by
  unfold canvasSize
  rw [h1, h2, h3]

/-- Helper: evaluation rule for `specCanvasSide`, kept at variables for
the same reason as `canvasSize_eq_of`. -/
theorem specCanvasSide_eq_of (w h t m c : ℕ) (h1 : 25 * (w * w + h * h) = t)
    (h2 : Nat.sqrt t = m)
    (h3 : (if m * m = t ∧ m % 4 = 0 then m / 4 else m / 4 + 1) = c) :
    specCanvasSide w h = c := by
  show (if Nat.sqrt (25 * (w * w + h * h)) * Nat.sqrt (25 * (w * w + h * h)) =
          25 * (w * w + h * h) ∧ Nat.sqrt (25 * (w * w + h * h)) % 4 = 0
        then Nat.sqrt (25 * (w * w + h * h)) / 4
        else Nat.sqrt (25 * (w * w + h * h)) / 4 + 1) = c
  rw [h1, h2, h3]

/-- Helper: the code's canvas side for a 1920×1080 target is 2752. -/
theorem canvasSize_1920_1080 : canvasSize 1920 1080 = 2752 :=
  canvasSize_eq_of 1920 1080 4852800 2202 2752 (by norm_num) sqrt_4852800
    (by norm_num)

/-- Helper: the spec's ceiling formula for a 1920×1080 target is 2754. -/
theorem specCanvasSide_1920_1080 : specCanvasSide 1920 1080 = 2754 :=
  specCanvasSide_eq_of 1920 1080 121320000 11014 2754 (by norm_num)
    sqrt_121320000 (by norm_num)

end XWatermark

namespace XWatermark

/-! Tiling loop of `createWatermarkImage` (src/main.go lines 214–239). -/

/-- Effective horizontal tile spacing, translated from
`watermarkConfig.spacingX * 4 / 3` (src/main.go line 214); Go's `/` on
`int` truncates toward zero, which is `Int.tdiv`. -/
def effSpacingX (sx : ℤ) : ℤ := Int.tdiv (sx * 4) 3

/-- Effective vertical tile spacing, translated from
`watermarkConfig.spacingY * 4 / 3` (src/main.go line 215). -/
def effSpacingY (sy : ℤ) : ℤ := Int.tdiv (sy * 4) 3

/-- Lower anchor bound of the tiling loops, translated from
`startX := -canvasSize / 2` (and the identical `startY`,
src/main.go lines 221, 223). -/
def tileStart (c : ℕ) : ℤ := Int.tdiv (-(c : ℤ)) 2

/-- Upper anchor bound of the tiling loops, translated from
`endX := canvasSize * 3 / 2` (and the identical `endY`,
src/main.go lines 222, 224). -/
def tileEnd (c : ℕ) : ℤ := Int.tdiv ((c : ℤ) * 3) 2

/-- Helper: `tileStart` in terms of natural division. -/
theorem tileStart_eq (c : ℕ) : tileStart c = -((c / 2 : ℕ) : ℤ) := by
  unfold tileStart
  rw [Int.neg_tdiv, show ((2 : ℤ)) = ((2 : ℕ) : ℤ) from rfl, ← Int.ofNat_tdiv]

/-- Helper: `tileEnd` in terms of natural division. -/
theorem tileEnd_eq (c : ℕ) : tileEnd c = ((c * 3 / 2 : ℕ) : ℤ) := by
  unfold tileEnd
  rw [show ((c : ℤ) * 3) = ((c * 3 : ℕ) : ℤ) by push_cast; ring,
    show ((2 : ℤ)) = ((2 : ℕ) : ℤ) from rfl, ← Int.ofNat_tdiv]

/-- Values taken by one axis of the tiling loop
`for v := start; v < stop; v += step` (src/main.go lines 227–228), in
iteration order; defined for a positive step, where the loop
terminates. -/
def loopVals (stop step : ℤ) (hstep : 0 < step) (cur : ℤ) : List ℤ :=
  if h : cur < stop then cur :: loopVals stop step hstep (cur + step) else []
termination_by (stop - cur).toNat
decreasing_by omega

/-- Membership characterisation of the loop values: exactly the
arithmetic progression `cur, cur+step, …` truncated below `stop`. -/
theorem mem_loopVals (stop step : ℤ) (hstep : 0 < step) (cur z : ℤ) :
    z ∈ loopVals stop step hstep cur ↔
      ∃ k : ℕ, z = cur + k * step ∧ z < stop := by
  have H : ∀ n : ℕ, ∀ cur : ℤ, (stop - cur).toNat = n → ∀ z : ℤ,
      (z ∈ loopVals stop step hstep cur ↔
        ∃ k : ℕ, z = cur + k * step ∧ z < stop) := by
    intro n
    induction n using Nat.strong_induction_on with
    | _ n ih =>
      intro cur hn z
      rw [loopVals]
      by_cases h : cur < stop
      · rw [dif_pos h, List.mem_cons,
          ih ((stop - (cur + step)).toNat) (by omega) (cur + step) rfl z]
        constructor
        · rintro (rfl | ⟨k, hk, hz⟩)
          · exact ⟨0, by simp, h⟩
          · refine ⟨k + 1, ?_, hz⟩
            push_cast
            push_cast at hk
            linarith
        · rintro ⟨k, hk, hz⟩
          cases k with
          | zero => left; simpa using hk
          | succ k' =>
            right
            refine ⟨k', ?_, hz⟩
            push_cast
            push_cast at hk
            linarith
      · rw [dif_neg h]
        simp only [List.not_mem_nil, false_iff]
        rintro ⟨k, hk, hz⟩
        push_neg at h
        have hk0 : (0 : ℤ) ≤ (k : ℤ) * step :=
          mul_nonneg (by positivity) hstep.le
        linarith
  exact H ((stop - cur).toNat) cur rfl z

/-- The horizontal tile anchors visited by the inner loop
(src/main.go line 228). -/
def xAnchors (c : ℕ) (step : ℤ) (h : 0 < step) : List ℤ :=
  loopVals (tileEnd c) step h (tileStart c)

/-- The vertical tile anchors visited by the outer loop
(src/main.go line 227). -/
def yAnchors (c : ℕ) (step : ℤ) (h : 0 < step) : List ℤ :=
  loopVals (tileEnd c) step h (tileStart c)

/-- Skew-rotated, center-translated position of a tile anchor,
translated from src/main.go lines 229–232; `cosA`/`sinA` stand for the
values of `math.Cos(angle)` and `math.Sin(angle)`, and `float64`
arithmetic is idealised as exact rational arithmetic. -/
def rotPos (cosA sinA : ℚ) (c : ℕ) (x y : ℤ) : ℚ × ℚ :=
  ((x : ℚ) * cosA - (y : ℚ) * sinA + (c : ℚ) / 2,
   (x : ℚ) * sinA + (y : ℚ) * cosA + (c : ℚ) / 2)

/-- Canvas-bounds guard of the draw call, translated from
`rotX >= 0 && rotX < float64(canvasSize) && rotY >= 0 && rotY < float64(canvasSize)`
(src/main.go line 234). -/
def inCanvas (c : ℕ) (p : ℚ × ℚ) : Prop :=
  0 ≤ p.1 ∧ p.1 < (c : ℚ) ∧ 0 ≤ p.2 ∧ p.2 < (c : ℚ)

instance (c : ℕ) (p : ℚ × ℚ) : Decidable (inCanvas c p) := by
  unfold inCanvas
  infer_instance

/-- Anchors at which `c.DrawString` is invoked, in invocation order,
translated from the nested tiling loops (src/main.go lines 227–239):
the outer loop walks the vertical anchors, the inner loop the
horizontal ones, and the draw happens exactly under the bounds guard. -/
def drawCalls (c : ℕ) (sx sy : ℤ) (hsx : 0 < sx) (hsy : 0 < sy)
    (cosA sinA : ℚ) : List (ℤ × ℤ) :=
  (yAnchors c sy hsy).flatMap fun y =>
    (xAnchors c sx hsx).filterMap fun x =>
      if inCanvas c (rotPos cosA sinA c x y) then some (x, y) else none

/-- C1 counterexample: for the 1920×1080 target the code produces a
canvas side of 2752 while the spec's formula `ceil(sqrt(w²+h²)·5/4)`
gives 2754, so the two differ by 2 — outside the claimed ±1 rounding
tolerance. -/
theorem C1_counterexample_canvasSize :
    canvasSize 1920 1080 = 2752 ∧ specCanvasSide 1920 1080 = 2754 ∧
      ¬ (specCanvasSide 1920 1080 ≤ canvasSize 1920 1080 + 1 ∧
         canvasSize 1920 1080 ≤ specCanvasSide 1920 1080 + 1) := by
  refine ⟨canvasSize_1920_1080, specCanvasSide_1920_1080, ?_⟩
  rw [canvasSize_1920_1080, specCanvasSide_1920_1080]
  omega

/-- C1 (amended): the code computes the canvas side as
`floor(sqrt(w²+h²)) * 5 / 4` in integer arithmetic (truncating the
square root before scaling), which for 1920×1080 yields 2752; it never
exceeds the spec's ceiling formula and falls short of it by at most 3. -/
theorem C1_canvasSize_floor_formula :
    canvasSize 1920 1080 = 2752 ∧
      ∀ w h : ℕ,
        canvasSize w h ≤ specCanvasSide w h ∧
          specCanvasSide w h ≤ canvasSize w h + 3 := by
  refine ⟨canvasSize_1920_1080, fun w h => ?_⟩
  obtain ⟨hmem, hlb⟩ := specCanvasSide_isLeast w h
  set s := w * w + h * h with hs
  set m := Nat.sqrt s with hm
  have hmle : m * m ≤ s := by simpa [pow_two] using Nat.sqrt_le' s
  have hmlt : s < (m + 1) * (m + 1) := by
    simpa [pow_two, Nat.succ_eq_add_one] using Nat.lt_succ_sqrt' s
  have hcode : canvasSize w h = m * 5 / 4 := rfl
  have h4a : 4 * (m * 5 / 4) ≤ m * 5 := by omega
  have h4b : m * 5 ≤ 4 * (m * 5 / 4) + 3 := by omega
  set sp := specCanvasSide w h with hsp
  have hspec : 25 * s ≤ 16 * (sp * sp) := hmem
  constructor
  · by_contra hlt
    push_neg at hlt
    rw [hcode] at hlt
    have h1 : 4 * sp + 1 ≤ 5 * m := by omega
    have h1sq : (4 * sp + 1) * (4 * sp + 1) ≤ (5 * m) * (5 * m) :=
      Nat.mul_le_mul h1 h1
    have h2 : 16 * (sp * sp) < 25 * (m * m) := by nlinarith
    have h3 : 25 * (m * m) ≤ 25 * s := by linarith
    linarith
  · have hmemc : canvasSize w h + 3 ∈ {n : ℕ | 25 * s ≤ 16 * (n * n)} := by
      show 25 * s ≤ 16 * ((canvasSize w h + 3) * (canvasSize w h + 3))
      rw [hcode]
      have h5 : 5 * (m + 1) ≤ 4 * (m * 5 / 4 + 3) := by omega
      have h5sq : (5 * (m + 1)) * (5 * (m + 1)) ≤
          (4 * (m * 5 / 4 + 3)) * (4 * (m * 5 / 4 + 3)) :=
        Nat.mul_le_mul h5 h5
      nlinarith
    exact hlb hmemc

/-- C2 (code bug): the synthesiser performs no spacing validation at
all.  With a nonpositive configured spacing the effective spacing is
nonpositive, and then every iterate of the tiling loop variable stays
strictly below the loop bound, so the loop condition never becomes
false: the code loops forever instead of raising a configuration
error. -/
theorem C2_nonpositive_spacing_loop_never_exits (c : ℕ) (hc : 1 ≤ c)
    (s : ℤ) (hs : s ≤ 0) :
    effSpacingY s ≤ 0 ∧
      ∀ k : ℕ, tileStart c + k * effSpacingY s < tileEnd c := by
  have h1 : effSpacingY s ≤ 0 := by
    unfold effSpacingY
    have h4 : (0 : ℤ) ≤ -(s * 4) := by linarith
    have h5 := Int.tdiv_nonneg h4 (by norm_num : (0:ℤ) ≤ 3)
    rw [Int.neg_tdiv] at h5
    linarith
  refine ⟨h1, fun k => ?_⟩
  have hk : (k : ℤ) * effSpacingY s ≤ 0 :=
    mul_nonpos_iff.mpr (Or.inl ⟨by positivity, h1⟩)
  rw [tileStart_eq, tileEnd_eq]
  have h2 : (1 : ℕ) ≤ c * 3 / 2 := by omega
  have h3 : (0 : ℤ) ≤ ((c / 2 : ℕ) : ℤ) := by positivity
  have h6 : (1 : ℤ) ≤ ((c * 3 / 2 : ℕ) : ℤ) := by exact_mod_cast h2
  linarith

/-- C2 witness: concrete instance at canvas size 1 and configured
spacing 0. -/
theorem C2_witness :
    effSpacingY 0 ≤ 0 ∧
      ∀ k : ℕ, tileStart 1 + k * effSpacingY 0 < tileEnd 1 :=
  C2_nonpositive_spacing_loop_never_exits 1 (by norm_num) 0 (by norm_num)

/-- C5: a draw call is recorded for an anchor pair exactly when both
coordinates are visited by the loops and the skew-rotated,
center-translated position lands inside `[0, canvasSize)` on both
axes; in particular no draw call occurs for an anchor whose rotated
position falls outside the canvas. -/
theorem C5_draw_iff_rotated_in_canvas (c : ℕ) (sx sy : ℤ)
    (hsx : 0 < sx) (hsy : 0 < sy) (cosA sinA : ℚ) (p : ℤ × ℤ) :
    p ∈ drawCalls c sx sy hsx hsy cosA sinA ↔
      p.1 ∈ xAnchors c sx hsx ∧ p.2 ∈ yAnchors c sy hsy ∧
        inCanvas c (rotPos cosA sinA c p.1 p.2) := by
  obtain ⟨px, py⟩ := p
  unfold drawCalls
  rw [List.mem_flatMap]
  constructor
  · rintro ⟨y, hy, hmem⟩
    rw [List.mem_filterMap] at hmem
    obtain ⟨x, hx, hfx⟩ := hmem
    by_cases hg : inCanvas c (rotPos cosA sinA c x y)
    · rw [if_pos hg] at hfx
      obtain ⟨rfl, rfl⟩ : x = px ∧ y = py := by
        have := Option.some.inj hfx
        exact ⟨congrArg Prod.fst this, congrArg Prod.snd this⟩
      exact ⟨hx, hy, hg⟩
    · rw [if_neg hg] at hfx
      exact absurd hfx (by simp)
  · rintro ⟨hx, hy, hg⟩
    exact ⟨py, hy, List.mem_filterMap.mpr ⟨px, hx, by rw [if_pos hg]⟩⟩

/-- C5 witness: concrete instance at canvas size 4, spacing 3, and the
identity skew rotation. -/
theorem C5_witness :
    ((0, 0) : ℤ × ℤ) ∈
        drawCalls 4 3 3 (by norm_num) (by norm_num) 1 0 ↔
      (0 : ℤ) ∈ xAnchors 4 3 (by norm_num) ∧
        (0 : ℤ) ∈ yAnchors 4 3 (by norm_num) ∧
          inCanvas 4 (rotPos 1 0 4 0 0) :=
  C5_draw_iff_rotated_in_canvas 4 3 3 (by norm_num) (by norm_num) 1 0 (0, 0)

/-- C7: the effective tile spacing computed by the code equals the
floor of the configured spacing magnified by the exact rational factor
4/3, on both axes, for any nonnegative configured spacing. -/
theorem C7_effective_spacing_is_4_3_magnification (s : ℤ) (hs : 0 ≤ s) :
    effSpacingX s = ⌊(s : ℚ) * (4 / 3)⌋ ∧
      effSpacingY s = ⌊(s : ℚ) * (4 / 3)⌋ := by
  have key : Int.tdiv (s * 4) 3 = ⌊(s : ℚ) * (4 / 3)⌋ := by
    have h1 : ((s * 4 : ℤ) : ℚ) / ((3 : ℕ) : ℚ) = (s : ℚ) * (4 / 3) := by
      push_cast
      ring
    have h2 : ⌊(s : ℚ) * (4 / 3)⌋ = (s * 4) / ((3 : ℕ) : ℤ) := by
      rw [← h1, Rat.floor_intCast_div_natCast]
    rw [h2, Int.tdiv_eq_ediv (by linarith) (by norm_num)]
    norm_num
  exact ⟨key, key⟩

/-- C7 witness: the configured horizontal spacing 250 becomes 333,
which is exactly `floor(250 · 4/3)`. -/
theorem C7_witness :
    effSpacingX 250 = ⌊(250 : ℚ) * (4 / 3)⌋ ∧
      effSpacingY 250 = ⌊(250 : ℚ) * (4 / 3)⌋ :=
  C7_effective_spacing_is_4_3_magnification 250 (by norm_num)

/-- C8: on both axes the tiling loop visits exactly the arithmetic
progression starting at `-canvasSize/2` (inclusive, visited whenever
the range is nonempty) advancing by the effective spacing, truncated
strictly below `canvasSize*3/2`; the bounds are the integer divisions
`-(c/2)` and `c*3/2` of the code. -/
theorem C8_anchor_iteration_range (c : ℕ) (sx sy : ℤ)
    (hx : 0 < effSpacingX sx) (hy : 0 < effSpacingY sy) (z : ℤ) :
    tileStart c = -((c / 2 : ℕ) : ℤ) ∧
      tileEnd c = ((c * 3 / 2 : ℕ) : ℤ) ∧
      (z ∈ xAnchors c (effSpacingX sx) hx ↔
        ∃ k : ℕ, z = tileStart c + k * effSpacingX sx ∧ z < tileEnd c) ∧
      (z ∈ yAnchors c (effSpacingY sy) hy ↔
        ∃ k : ℕ, z = tileStart c + k * effSpacingY sy ∧ z < tileEnd c) ∧
      (tileStart c < tileEnd c → tileStart c ∈ xAnchors c (effSpacingX sx) hx) := by
  refine ⟨tileStart_eq c, tileEnd_eq c,
    mem_loopVals _ _ hx _ z, mem_loopVals _ _ hy _ z, fun hlt => ?_⟩
  exact (mem_loopVals _ _ hx _ _).mpr ⟨0, by simp, by simpa using hlt⟩

/-- C8 witness: concrete instance at canvas size 4 and configured
spacing 3 (effective spacing 4). -/
theorem C8_witness :
    tileStart 4 = -((4 / 2 : ℕ) : ℤ) ∧
      tileEnd 4 = ((4 * 3 / 2 : ℕ) : ℤ) ∧
      ((0 : ℤ) ∈ xAnchors 4 (effSpacingX 3) (by decide) ↔
        ∃ k : ℕ, (0 : ℤ) = tileStart 4 + k * effSpacingX 3 ∧ (0 : ℤ) < tileEnd 4) ∧
      ((0 : ℤ) ∈ yAnchors 4 (effSpacingY 3) (by decide) ↔
        ∃ k : ℕ, (0 : ℤ) = tileStart 4 + k * effSpacingY 3 ∧ (0 : ℤ) < tileEnd 4) ∧
      (tileStart 4 < tileEnd 4 → tileStart 4 ∈ xAnchors 4 (effSpacingX 3) (by decide)) :=
  C8_anchor_iteration_range 4 3 3 (by decide) (by decide) 0

/-! Canvas creation and transparent initialisation
(src/main.go lines 184–192). -/

/-- Bounds-checked pixel write, mirroring `(*image.RGBA).Set`, which
ignores out-of-bounds writes. -/
def Image.set (img : Image) (x y : ℕ) (p : RGBA) : Image :=
  if x < img.width ∧ y < img.height then
    { img with pix := fun a b => if a = x ∧ b = y then p else img.pix a b }
  else img

/-- Fresh buffer of `image.NewRGBA(image.Rect(0, 0, c, c))`
(src/main.go line 184): Go allocates zeroed memory, so every channel of
every pixel starts at 0. -/
def newRGBA (w h : ℕ) : Image :=
  ⟨w, h, fun _ _ => ⟨0, 0, 0, 0⟩⟩

/-- Transparent-clearing double loop over the whole canvas, translated
from src/main.go lines 187–192: each in-bounds pixel is explicitly set
to `image.Transparent`. -/
def clearLoop (img : Image) : Image :=
  (List.range img.height).foldl
    (fun im y => (List.range img.width).foldl
      (fun im2 x => im2.set x y RGBA.transparent) im)
    img

/-- Canvas state right after creation and clearing, before any tile is
drawn (src/main.go lines 184–192). -/
def initialCanvas (c : ℕ) : Image :=
  clearLoop (newRGBA c c)

/-- Helper: a fold preserves any invariant each step preserves. -/
theorem foldl_preserves {α : Type} (P : Image → Prop) (f : Image → α → Image)
    (hf : ∀ im a, P im → P (f im a)) :
    ∀ l : List α, ∀ im, P im → P (List.foldl f im l) := by
  intro l
  induction l with
  | nil => intro im h; exact h
  | cons a l ih => intro im h; exact ih _ (hf im a h)

/-- Helper: writing a transparent pixel preserves all-transparency. -/
theorem set_transparent_preserves (im : Image) (x y : ℕ)
    (h : ∀ a b, (im.pix a b).a = 0) :
    ∀ a b, ((im.set x y RGBA.transparent).pix a b).a = 0 := by
  intro a b
  unfold Image.set
  by_cases hb : x < im.width ∧ y < im.height
  · rw [if_pos hb]
    by_cases hab : a = x ∧ b = y
    · simp only [if_pos hab]
      rfl
    · simp only [if_neg hab]
      exact h a b
  · rw [if_neg hb]
    exact h a b

/-- C6: every pixel of a freshly created and cleared canvas is fully
transparent (alpha = 0) before any tile is drawn. -/
theorem C6_initial_canvas_transparent (c x y : ℕ) :
    ((initialCanvas c).pix x y).a = 0 := by
  have base : ∀ a b, ((newRGBA c c).pix a b).a = 0 := fun _ _ => rfl
  have step : ∀ (l : List ℕ) (im : Image) (yy : ℕ),
      (∀ a b, (im.pix a b).a = 0) →
      ∀ a b, ((l.foldl
        (fun (im2 : Image) (x2 : ℕ) => im2.set x2 yy RGBA.transparent)
        im).pix a b).a = 0 :=
    fun l im yy him =>
      foldl_preserves (fun im2 => ∀ a b, (im2.pix a b).a = 0)
        (fun (im2 : Image) (x2 : ℕ) => im2.set x2 yy RGBA.transparent)
        (fun im2 x2 h2 => set_transparent_preserves im2 x2 yy h2) l im him
  have main := foldl_preserves (fun im2 => ∀ a b, (im2.pix a b).a = 0)
    (fun (im : Image) (yy : ℕ) => (List.range (newRGBA c c).width).foldl
      (fun (im2 : Image) (x2 : ℕ) => im2.set x2 yy RGBA.transparent) im)
    (fun im yy h2 => step _ im yy h2)
    (List.range (newRGBA c c).height) (newRGBA c c) base
  exact main x y

/-! Rotate-and-crop resampler (src/main.go lines 248–277), with
`float64` arithmetic idealised as exact real arithmetic. -/

/-- Planar rotation by an angle, used to state the spec's
inverse-mapping property. -/
noncomputable def rot2d (θ : ℝ) (p : ℝ × ℝ) : ℝ × ℝ :=
  (p.1 * Real.cos θ - p.2 * Real.sin θ, p.1 * Real.sin θ + p.2 * Real.cos θ)

/-- Source coordinates `(oldX, oldY)` to which a destination pixel
`(x, y)` is inverse-mapped, translated from src/main.go lines 264–268:
`dx := x - newCX`, `dy := y - newCY`,
`oldX := dx*cos(-rad) - dy*sin(-rad) + cx`,
`oldY := dx*sin(-rad) + dy*cos(-rad) + cy`, with `rad = angle·π/180`,
`(cx, cy)` the canvas center and `(newCX, newCY)` the target center. -/
noncomputable def srcCoord (angle : ℝ) (cw ch tw th x y : ℕ) : ℝ × ℝ :=
  (((x : ℝ) - (tw : ℝ) / 2) * Real.cos (-(angle * Real.pi / 180)) -
     ((y : ℝ) - (th : ℝ) / 2) * Real.sin (-(angle * Real.pi / 180)) + (cw : ℝ) / 2,
   ((x : ℝ) - (tw : ℝ) / 2) * Real.sin (-(angle * Real.pi / 180)) +
     ((y : ℝ) - (th : ℝ) / 2) * Real.cos (-(angle * Real.pi / 180)) + (ch : ℝ) / 2)

/-- Bounds test of the resampler, translated from
`oldX >= 0 && oldX < w && oldY >= 0 && oldY < h`
(src/main.go line 270). -/
def inBoundsR (w h : ℕ) (p : ℝ × ℝ) : Prop :=
  0 ≤ p.1 ∧ p.1 < (w : ℝ) ∧ 0 ≤ p.2 ∧ p.2 < (h : ℝ)

open Classical in
/-- Translated from `rotateAndCrop` (src/main.go lines 248–277): the
destination is allocated at exactly the target size, every destination
pixel is inverse-mapped into the canvas, copied with truncating (`int`)
conversion when the source point is in bounds, and left at the
transparent zero value otherwise. -/
noncomputable def rotateAndCrop (img : Image) (angle : ℝ) (tw th : ℕ) : Image where
  width := tw
  height := th
  pix := fun x y =>
    if inBoundsR img.width img.height (srcCoord angle img.width img.height tw th x y) then
      img.pix (Int.toNat ⌊(srcCoord angle img.width img.height tw th x y).1⌋)
        (Int.toNat ⌊(srcCoord angle img.width img.height tw th x y).2⌋)
    else RGBA.transparent

open Classical in
/-- Helper: evaluation rule for the destination pixels of
`rotateAndCrop`. -/
theorem rotateAndCrop_pix (img : Image) (angle : ℝ) (tw th x y : ℕ) :
    (rotateAndCrop img angle tw th).pix x y =
      if inBoundsR img.width img.height (srcCoord angle img.width img.height tw th x y) then
        img.pix (Int.toNat ⌊(srcCoord angle img.width img.height tw th x y).1⌋)
          (Int.toNat ⌊(srcCoord angle img.width img.height tw th x y).2⌋)
      else RGBA.transparent := rfl

open Classical in
/-- C3: the resampler returns an image of exactly the target
dimensions; each destination pixel is inverse-mapped by rotating its
offset from the destination center by the negated angle and
translating by the canvas center (so rotating the source offset
forward by the angle recovers the destination offset exactly), and the
pixel is copied at the truncated source coordinates when in bounds and
left transparent otherwise. -/
theorem C3_resampler_inverse_mapping (img : Image) (angle : ℝ) (tw th x y : ℕ)
    (hx : x < tw) (hy : y < th) :
    (rotateAndCrop img angle tw th).width = tw ∧
      (rotateAndCrop img angle tw th).height = th ∧
      srcCoord angle img.width img.height tw th x y =
        ((rot2d (-(angle * Real.pi / 180))
            ((x : ℝ) - (tw : ℝ) / 2, (y : ℝ) - (th : ℝ) / 2)).1 + (img.width : ℝ) / 2,
         (rot2d (-(angle * Real.pi / 180))
            ((x : ℝ) - (tw : ℝ) / 2, (y : ℝ) - (th : ℝ) / 2)).2 + (img.height : ℝ) / 2) ∧
      rot2d (angle * Real.pi / 180)
          ((srcCoord angle img.width img.height tw th x y).1 - (img.width : ℝ) / 2,
           (srcCoord angle img.width img.height tw th x y).2 - (img.height : ℝ) / 2) =
        ((x : ℝ) - (tw : ℝ) / 2, (y : ℝ) - (th : ℝ) / 2) ∧
      (rotateAndCrop img angle tw th).pix x y =
        (if inBoundsR img.width img.height (srcCoord angle img.width img.height tw th x y) then
          img.pix (Int.toNat ⌊(srcCoord angle img.width img.height tw th x y).1⌋)
            (Int.toNat ⌊(srcCoord angle img.width img.height tw th x y).2⌋)
        else RGBA.transparent) := by
  refine ⟨rfl, rfl, rfl, ?_, rfl⟩
  have h := Real.sin_sq_add_cos_sq (angle * Real.pi / 180)
  unfold srcCoord rot2d
  simp only [Real.cos_neg, Real.sin_neg, Prod.mk.injEq]
  constructor
  · linear_combination ((x : ℝ) - (tw : ℝ) / 2) * h
  · linear_combination ((y : ℝ) - (th : ℝ) / 2) * h

/-- Test image used by concrete resampler instances: 2 pixels wide,
1 pixel high, with the red channel recording the column index. -/
def stripe2x1 : Image := ⟨2, 1, fun x _ => ⟨x, 0, 0, 255⟩⟩

open Classical in
/-- C3 witness: the concrete instance at a 2×1 canvas, zero angle and
a 1×1 target. -/
theorem C3_witness :
    (rotateAndCrop stripe2x1 0 1 1).width = 1 ∧
      (rotateAndCrop stripe2x1 0 1 1).height = 1 ∧
      srcCoord 0 stripe2x1.width stripe2x1.height 1 1 0 0 =
        ((rot2d (-((0 : ℝ) * Real.pi / 180))
            ((0 : ℝ) - (1 : ℝ) / 2, (0 : ℝ) - (1 : ℝ) / 2)).1 + (stripe2x1.width : ℝ) / 2,
         (rot2d (-((0 : ℝ) * Real.pi / 180))
            ((0 : ℝ) - (1 : ℝ) / 2, (0 : ℝ) - (1 : ℝ) / 2)).2 + (stripe2x1.height : ℝ) / 2) ∧
      rot2d ((0 : ℝ) * Real.pi / 180)
          ((srcCoord 0 stripe2x1.width stripe2x1.height 1 1 0 0).1 - (stripe2x1.width : ℝ) / 2,
           (srcCoord 0 stripe2x1.width stripe2x1.height 1 1 0 0).2 - (stripe2x1.height : ℝ) / 2) =
        ((0 : ℝ) - (1 : ℝ) / 2, (0 : ℝ) - (1 : ℝ) / 2) ∧
      (rotateAndCrop stripe2x1 0 1 1).pix 0 0 =
        (if inBoundsR stripe2x1.width stripe2x1.height
            (srcCoord 0 stripe2x1.width stripe2x1.height 1 1 0 0) then
          stripe2x1.pix (Int.toNat ⌊(srcCoord 0 stripe2x1.width stripe2x1.height 1 1 0 0).1⌋)
            (Int.toNat ⌊(srcCoord 0 stripe2x1.width stripe2x1.height 1 1 0 0).2⌋)
        else RGBA.transparent) := by
  have hcast0 : ((0 : ℕ) : ℝ) = 0 := by norm_num
  have hcast1 : ((1 : ℕ) : ℝ) = 1 := by norm_num
  have := C3_resampler_inverse_mapping stripe2x1 0 1 1 0 0 (by norm_num) (by norm_num)
  rw [hcast0, hcast1] at this
  exact this

/-- C9: resampling with a 360-degree rotation produces exactly the
same image as resampling with a 0-degree rotation — in exact real
arithmetic `cos` and `sin` are 2π-periodic, so the inverse mapping is
identical pixel for pixel. -/
theorem C9_rotation_360_equals_0 (img : Image) (tw th : ℕ) :
    rotateAndCrop img 360 tw th = rotateAndCrop img 0 tw th := by
  have hc : Real.cos (-((360 : ℝ) * Real.pi / 180)) =
      Real.cos (-((0 : ℝ) * Real.pi / 180)) := by
    rw [show ((360 : ℝ) * Real.pi / 180) = 2 * Real.pi by ring,
      show ((0 : ℝ) * Real.pi / 180) = 0 by ring]
    rw [Real.cos_neg, Real.cos_neg, Real.cos_two_pi, Real.cos_zero]
  have hs : Real.sin (-((360 : ℝ) * Real.pi / 180)) =
      Real.sin (-((0 : ℝ) * Real.pi / 180)) := by
    rw [show ((360 : ℝ) * Real.pi / 180) = 2 * Real.pi by ring,
      show ((0 : ℝ) * Real.pi / 180) = 0 by ring]
    rw [Real.sin_neg, Real.sin_neg, Real.sin_two_pi, Real.sin_zero]
  have hsrc : ∀ x y : ℕ,
      srcCoord 360 img.width img.height tw th x y =
        srcCoord 0 img.width img.height tw th x y := by
    intro x y
    unfold srcCoord
    rw [hc, hs]
  unfold rotateAndCrop
  congr 1
  funext x y
  rw [hsrc x y]

/-- C4 counterexample: for a 2×1 canvas and a 1×1 target (canvas width
even, target width odd), the zero-rotation resample copies canvas
pixel (0,0), not the pixel at the offset
`(canvas.width/2 - final.width/2, canvas.height/2 - final.height/2)`
computed with integer division, which is (1,0). -/
theorem C4_counterexample_parity :
    (rotateAndCrop stripe2x1 0 1 1).pix 0 0 ≠
      stripe2x1.pix (0 + 2 / 2 - 1 / 2) (0 + 1 / 2 - 1 / 2) := by
  rw [rotateAndCrop_pix]
  have hsrc : srcCoord 0 stripe2x1.width stripe2x1.height 1 1 0 0 =
      ((1 / 2 : ℝ), (0 : ℝ)) := by
    show srcCoord 0 2 1 1 1 0 0 = ((1 / 2 : ℝ), (0 : ℝ))
    unfold srcCoord
    norm_num
  rw [hsrc]
  have hg : inBoundsR stripe2x1.width stripe2x1.height ((1 / 2 : ℝ), (0 : ℝ)) := by
    show inBoundsR 2 1 ((1 / 2 : ℝ), (0 : ℝ))
    unfold inBoundsR
    norm_num
  rw [if_pos hg]
  have hf1 : ⌊(1 / 2 : ℝ)⌋ = 0 := by
    rw [Int.floor_eq_iff]
    norm_num
  have hf2 : ⌊(0 : ℝ)⌋ = 0 := Int.floor_zero
  rw [hf1, hf2]
  show stripe2x1.pix 0 0 ≠ stripe2x1.pix 1 0
  unfold stripe2x1
  simp

/-- C4 (amended): for zero rotation and a canvas at least as large as
the target, every target pixel `(x, y)` equals the canvas pixel at
offset `(⌊(canvas.width - final.width)/2⌋, ⌊(canvas.height - final.height)/2⌋)`
— the floor of half the size difference per axis, which agrees with
the spec's `canvas.width/2 - final.width/2` exactly when the two
widths (resp. heights) have the same parity. -/
theorem C4_zero_rotation_centered_crop (img : Image) (tw th x y : ℕ)
    (h1 : tw ≤ img.width) (h2 : th ≤ img.height) (hx : x < tw) (hy : y < th) :
    (rotateAndCrop img 0 tw th).pix x y =
      img.pix (x + (img.width - tw) / 2) (y + (img.height - th) / 2) := by
  rw [rotateAndCrop_pix]
  have hcos : Real.cos (-((0 : ℝ) * Real.pi / 180)) = 1 := by norm_num
  have hsin : Real.sin (-((0 : ℝ) * Real.pi / 180)) = 0 := by norm_num
  have hsrc : srcCoord 0 img.width img.height tw th x y =
      ((x : ℝ) + ((img.width : ℝ) - (tw : ℝ)) / 2,
       (y : ℝ) + ((img.height : ℝ) - (th : ℝ)) / 2) := by
    unfold srcCoord
    rw [hcos, hsin]
    simp only [Prod.mk.injEq]
    constructor
    · ring
    · ring
  rw [hsrc]
  have hxr : (x : ℝ) + 1 ≤ (tw : ℝ) := by exact_mod_cast hx
  have hyr : (y : ℝ) + 1 ≤ (th : ℝ) := by exact_mod_cast hy
  have htw : (tw : ℝ) ≤ (img.width : ℝ) := by exact_mod_cast h1
  have hth : (th : ℝ) ≤ (img.height : ℝ) := by exact_mod_cast h2
  have hx0 : (0 : ℝ) ≤ (x : ℝ) := Nat.cast_nonneg x
  have hy0 : (0 : ℝ) ≤ (y : ℝ) := Nat.cast_nonneg y
  have hg : inBoundsR img.width img.height
      ((x : ℝ) + ((img.width : ℝ) - (tw : ℝ)) / 2,
       (y : ℝ) + ((img.height : ℝ) - (th : ℝ)) / 2) := by
    unfold inBoundsR
    refine ⟨by simp only []; linarith, by simp only []; linarith,
      by simp only []; linarith, by simp only []; linarith⟩
  rw [if_pos hg]
  have hdx : ((img.width : ℝ) - (tw : ℝ)) = ((img.width - tw : ℕ) : ℝ) := by
    rw [Nat.cast_sub h1]
  have hdy : ((img.height : ℝ) - (th : ℝ)) = ((img.height - th : ℕ) : ℝ) := by
    rw [Nat.cast_sub h2]
  have floorHalf : ∀ (v d : ℕ), ⌊(v : ℝ) + ((d : ℕ) : ℝ) / 2⌋ = ((v + d / 2 : ℕ) : ℤ) := by
    intro v d
    obtain ⟨e, he⟩ : ∃ e : ℕ, d / 2 = e := ⟨d / 2, rfl⟩
    rw [he, Int.floor_eq_iff]
    have ha : (2 * e : ℕ) ≤ d := by omega
    have hb : d < 2 * e + 2 := by omega
    have ha2 : 2 * (e : ℝ) ≤ (d : ℝ) := by exact_mod_cast ha
    have hb2 : (d : ℝ) < 2 * (e : ℝ) + 2 := by exact_mod_cast hb
    constructor
    · push_cast
      linarith
    · push_cast
      linarith
  rw [hdx, hdy, floorHalf x (img.width - tw), floorHalf y (img.height - th)]
  have toNatCast : ∀ n : ℕ, Int.toNat ((n : ℤ)) = n := fun n => Int.toNat_natCast n
  rw [toNatCast, toNatCast]

/-- C4 witness for the amended crop-offset theorem: the 2×1 canvas
with a 1×1 target at pixel (0,0). -/
theorem C4_witness :
    (rotateAndCrop stripe2x1 0 1 1).pix 0 0 =
      stripe2x1.pix (0 + (stripe2x1.width - 1) / 2) (0 + (stripe2x1.height - 1) / 2) :=
  C4_zero_rotation_centered_crop stripe2x1 1 1 0 0 (by decide) (by decide)
    (by decide) (by decide)

/-! Username extraction (src/main.go lines 165–175), modelled on
`List Char`. -/

/-- Translated from `extractUsername`: strip everything up to and
including the last backslash if one is present; otherwise strip the
first `@` and everything after it; otherwise return the input
unchanged. `strings.LastIndex(s, "\\") >= 0` is containment of a
backslash, and `s[i+1:]` for `i` the last backslash index is the
longest backslash-free suffix. -/
def extractUsername (s : List Char) : List Char :=
  if s.any (fun c2 => c2 == '\\') then
    (s.reverse.takeWhile (fun c2 => c2 != '\\')).reverse
  else if s.any (fun c2 => c2 == '@') then
    s.takeWhile (fun c2 => c2 != '@')
  else s

/-- Helper: the head of a nonempty `dropWhile` result fails the
predicate. -/
theorem dropWhile_eq_cons_imp (p : Char → Bool) :
    ∀ {l : List Char} {d : Char} {t : List Char},
      l.dropWhile p = d :: t → p d = false := by
  intro l
  induction l with
  | nil => intro d t h; simp at h
  | cons a l ih =>
    intro d t h
    rw [List.dropWhile_cons] at h
    by_cases hpa : p a = true
    · rw [if_pos hpa] at h
      exact ih h
    · rw [if_neg hpa] at h
      cases h
      simpa using hpa

/-- Helper: splitting a list at the first occurrence of a character:
the part before is the longest prefix avoiding it. -/
theorem takeWhile_first_split (ch : Char) (s : List Char) (h : ch ∈ s) :
    ∃ suf : List Char,
      s = s.takeWhile (fun c2 => c2 != ch) ++ ch :: suf ∧
        ch ∉ s.takeWhile (fun c2 => c2 != ch) := by
  have hsplit := List.takeWhile_append_dropWhile (fun c2 => c2 != ch) s
  have hnotmem : ch ∉ s.takeWhile (fun c2 => c2 != ch) := by
    intro hmem
    have := List.mem_takeWhile_imp hmem
    simp at this
  cases hE : s.dropWhile (fun c2 => c2 != ch) with
  | nil =>
    exfalso
    rw [hE, List.append_nil] at hsplit
    rw [← hsplit] at h
    exact hnotmem h
  | cons d t =>
    have hd : (fun c2 => c2 != ch) d = false :=
      dropWhile_eq_cons_imp (fun c2 => c2 != ch) hE
    have hdch : d = ch := by simpa using hd
    refine ⟨t, ?_, hnotmem⟩
    conv_lhs => rw [← hsplit, hE, hdch]

/-- Helper: splitting a list at the last occurrence of a character:
the part after is the longest suffix avoiding it, obtained by the
reverse/takeWhile/reverse idiom. -/
theorem takeWhile_last_split (ch : Char) (s : List Char) (h : ch ∈ s) :
    ∃ pre : List Char,
      s = pre ++ ch :: (s.reverse.takeWhile (fun c2 => c2 != ch)).reverse ∧
        ch ∉ (s.reverse.takeWhile (fun c2 => c2 != ch)).reverse := by
  obtain ⟨suf, hs, hnm⟩ :=
    takeWhile_first_split ch s.reverse (List.mem_reverse.mpr h)
  refine ⟨suf.reverse, ?_, fun hmem => hnm (List.mem_reverse.mp hmem)⟩
  conv_lhs => rw [← List.reverse_reverse s, hs]
  simp [List.reverse_append, List.reverse_cons, List.append_assoc]

/-- C10: `extractUsername` returns the substring after the last
backslash when one is present (even when an `@` follows, as in
`domain\name@host`, where the result keeps the `@host` suffix);
otherwise the prefix before the first `@` when one is present;
otherwise the input unchanged. -/
theorem C10_extractUsername_characterisation (s : List Char) :
    ('\\' ∈ s →
        ∃ pre : List Char, s = pre ++ '\\' :: extractUsername s ∧
          '\\' ∉ extractUsername s) ∧
      ('\\' ∉ s → '@' ∈ s →
        ∃ suf : List Char, s = extractUsername s ++ '@' :: suf ∧
          '@' ∉ extractUsername s) ∧
      ('\\' ∉ s → '@' ∉ s → extractUsername s = s) ∧
      extractUsername ("domain\\name@host".toList) = "name@host".toList := by
  refine ⟨?_, ?_, ?_, ?_⟩
  · intro h
    have hany : s.any (fun c2 => c2 == '\\') = true :=
      List.any_eq_true.mpr ⟨'\\', h, by simp⟩
    unfold extractUsername
    rw [if_pos hany]
    exact takeWhile_last_split '\\' s h
  · intro h1 h2
    have hany1 : ¬ (s.any (fun c2 => c2 == '\\') = true) := by
      simp only [List.any_eq_true, not_exists]
      rintro x ⟨hx, hxe⟩
      have hx2 : x = '\\' := by simpa using hxe
      subst hx2
      exact h1 hx
    have hany2 : s.any (fun c2 => c2 == '@') = true :=
      List.any_eq_true.mpr ⟨'@', h2, by simp⟩
    unfold extractUsername
    rw [if_neg hany1, if_pos hany2]
    exact takeWhile_first_split '@' s h2
  · intro h1 h2
    have hany1 : ¬ (s.any (fun c2 => c2 == '\\') = true) := by
      simp only [List.any_eq_true, not_exists]
      rintro x ⟨hx, hxe⟩
      have hx2 : x = '\\' := by simpa using hxe
      subst hx2
      exact h1 hx
    have hany2 : ¬ (s.any (fun c2 => c2 == '@') = true) := by
      simp only [List.any_eq_true, not_exists]
      rintro x ⟨hx, hxe⟩
      have hx2 : x = '@' := by simpa using hxe
      subst hx2
      exact h2 hx
    unfold extractUsername
    rw [if_neg hany1, if_neg hany2]
  · decide

/-- C10 witness: the mixed `domain\name@host` input at the backslash
branch of the characterisation. -/
theorem C10_witness :
    ∃ pre : List Char,
      "domain\\name@host".toList =
          pre ++ '\\' :: extractUsername ("domain\\name@host".toList) ∧
        '\\' ∉ extractUsername ("domain\\name@host".toList) :=
  (C10_extractUsername_characterisation ("domain\\name@host".toList)).1 (by decide)

end XWatermark
